import Mathlib

/-!
Verification development for the kogs-utils repository.

The repository offers a recursive copy engine (`copy` and its blocking twin
`copySync`), a recursive directory lister (`collectFiles`), and stream helpers
(`arrayToStream`, `streamToArray`, `mergeStreams` in two variants).

The filesystem is embedded as a finite tree of files and directories; paths are
lists of segments (`path.join(dir, name)` becomes `dir ++ [name]`).  Filesystem
primitives (`stat`, `rm`, `unlink`, `copyFile`, `mkdir -p`, `readdir`) are
explicit tree operations, and the copy engine is a state-passing function over
that tree.  A thrown exception is an `Except.error` carrying the error kind and
the filesystem state at the moment of the throw (the underlying primitives
mutate nothing after a throw, so that state is exactly what the caller
observes).  Machine details that no claim touches (permissions, symlinks,
platform timestamp resolution) are outside the model; modification times are
naturals.
-/

namespace KogsUtils

/-- A filesystem path, as its list of segments. -/
abbrev Path := List String

/-- A filesystem node: a file with a modification time and its bytes, or a
directory with a modification time and named entries. -/
inductive FSNode where
  | file (mtime : Nat) (content : List Nat)
  | dir (mtime : Nat) (entries : List (String × FSNode))
deriving Repr

/-- The `isFile()` test of `fs.Stats`. -/
def FSNode.isFile : FSNode → Bool
  | .file _ _ => true
  | .dir _ _ => false

/-- The `isDirectory()` test of `fs.Stats`. -/
def FSNode.isDirectory : FSNode → Bool
  | .file _ _ => false
  | .dir _ _ => true

/-- The `mtimeMs` field of `fs.Stats` (directories have one as well). -/
def FSNode.mtime : FSNode → Nat
  | .file m _ => m
  | .dir m _ => m

/-- Look an entry name up in a directory's entry list (first match). -/
def findEntry : List (String × FSNode) → String → Option FSNode
  | [], _ => none
  | (k, v) :: rest, seg => if k = seg then some v else findEntry rest seg

/-- Replace the entry named `seg` (or append it when absent). -/
def setEntry : List (String × FSNode) → String → FSNode → List (String × FSNode)
  | [], seg, n => [(seg, n)]
  | (k, v) :: rest, seg, n =>
    if k = seg then (k, n) :: rest else (k, v) :: setEntry rest seg n

/-- Drop every entry named `seg`. -/
def eraseEntry : List (String × FSNode) → String → List (String × FSNode)
  | [], _ => []
  | (k, v) :: rest, seg =>
    if k = seg then eraseEntry rest seg else (k, v) :: eraseEntry rest seg

/-- Apply `f` to the entry named `seg`, leaving the rest untouched. -/
def updateEntry : List (String × FSNode) → String → (FSNode → FSNode) →
    List (String × FSNode)
  | [], _, _ => []
  | (k, v) :: rest, seg, f =>
    if k = seg then (k, f v) :: updateEntry rest seg f
    else (k, v) :: updateEntry rest seg f

/-- Resolve a path inside a node: the model of `stat` (`some` when the path
exists, `none` when it is absent). -/
def FSNode.lookup : FSNode → Path → Option FSNode
  | n, [] => some n
  | .file _ _, _ :: _ => none
  | .dir _ es, seg :: rest =>
    match findEntry es seg with
    | some c => c.lookup rest
    | none => none

/-- Remove the node at a path: the model of `fs.rm(p, { recursive: true })` and
of `fs.unlink(p)` (the engine only invokes these on paths it has just observed
to exist, with the kind the primitive expects).  Removing the root path or a
path under a file leaves the tree unchanged. -/
def removeAt : FSNode → Path → FSNode
  | n, [] => n
  | .file m c, _ :: _ => .file m c
  | .dir m es, seg :: rest =>
    match rest with
    | [] => .dir m (eraseEntry es seg)
    | _ :: _ => .dir m (updateEntry es seg (fun c => removeAt c rest))

/-- Write `newN` at a path whose parent chain must already exist as
directories; `none` models the `ENOENT`/`ENOTDIR` failure of a write whose
parent is missing or not a directory. -/
def updateAt : FSNode → Path → FSNode → Option FSNode
  | _, [], newN => some newN
  | .file _ _, _ :: _, _ => none
  | .dir m es, seg :: rest, newN =>
    match rest with
    | [] => some (.dir m (setEntry es seg newN))
    | _ :: _ =>
      match findEntry es seg with
      | some child =>
        match updateAt child rest newN with
        | some c => some (.dir m (setEntry es seg c))
        | none => none
      | none => none

/-- The model of `fs.mkdir(p, { recursive: true })`: creates the missing
directories along the path (with modification time `now`), succeeds silently
when the full path already is a directory, and fails (`none`) when the path or
one of its ancestors exists as a file (`EEXIST`/`ENOTDIR`). -/
def mkdirRec (now : Nat) : FSNode → Path → Option FSNode
  | .dir m es, [] => some (.dir m es)
  | .file _ _, [] => none
  | .file _ _, _ :: _ => none
  | .dir m es, seg :: rest =>
    let child := match findEntry es seg with
      | some c => c
      | none => .dir now []
    match mkdirRec now child rest with
    | some c => some (.dir m (setEntry es seg c))
    | none => none

/-- The `overwrite` field of `CopyOptions`: `'always' | 'never' | 'newer' |
true | false`.  The absent-options and absent-field cases both collapse to
`none` at the call sites below. -/
inductive OverwriteOpt where
  | always
  | never
  | newer
  | flag (b : Bool)
deriving DecidableEq, Repr

/-- The failure kinds the copy engine can propagate.  `sourceNotFound` is the
rejection of `stat(src)` when the source path does not exist (the spec's
`SourceNotFoundError`); the others are the corresponding primitive failures.
`outOfFuel` is an artifact of the embedding: the source recursion has no
structural bound when source and destination overlap, so the model carries a
recursion budget that every theorem instantiates high enough. -/
inductive CopyErr where
  | sourceNotFound
  | copyFileFailed
  | mkdirFailed
  | readdirFailed
  | outOfFuel
deriving DecidableEq, Repr

/-- The asynchronous `copy(src, dest, options)` of the source, as a function
from the initial filesystem to either the final filesystem or the error thrown
together with the filesystem at the throw.  `now` is the clock used for
modification times written during the call.  Note that the source code passes
no `options` argument to the recursive call on directory children, so the
children run with `none`. -/
def copy : Nat → FSNode → Path → Path → Option OverwriteOpt → Nat →
    Except (CopyErr × FSNode) FSNode
  | 0, root, _, _, _, _ => .error (CopyErr.outOfFuel, root)
  | fuel + 1, root, src, dest, options, now =>
    match FSNode.lookup root src with
    | none => .error (CopyErr.sourceNotFound, root)
    | some srcStat =>
      let destStat : Option FSNode := FSNode.lookup root dest
      let ow0 : Bool := decide (options = some OverwriteOpt.always) ||
        decide (options = some (OverwriteOpt.flag true))
      let ow : Bool :=
        if options = some OverwriteOpt.newer then
          match destStat with
          | some d => if srcStat.mtime > d.mtime then true else ow0
          | none => ow0
        else ow0
      if srcStat.isFile then
        let doCopyFile : FSNode → Except (CopyErr × FSNode) FSNode := fun r =>
          match FSNode.lookup r src with
          | some (FSNode.file _ c) =>
            match updateAt r dest (FSNode.file now c) with
            | some r2 => Except.ok r2
            | none => Except.error (CopyErr.copyFileFailed, r)
          | _ => Except.error (CopyErr.copyFileFailed, r)
        match destStat with
        | some d =>
          if ow then
            doCopyFile (if d.isDirectory then removeAt root dest else root)
          else Except.ok root
        | none => doCopyFile root
      else
        let resolved : Option FSNode :=
          match destStat with
          | some d =>
            if d.isFile then (if ow then some (removeAt root dest) else none)
            else some root
          | none => some root
        match resolved with
        | none => Except.ok root
        | some root1 =>
          match mkdirRec now root1 dest with
          | none => Except.error (CopyErr.mkdirFailed, root1)
          | some root2 =>
            match FSNode.lookup root2 src with
            | some (FSNode.dir _ es) =>
              (es.map Prod.fst).foldlM
                (fun r name => copy fuel r (src ++ [name]) (dest ++ [name]) none now) root2
            | _ => Except.error (CopyErr.readdirFailed, root2)

/-- The blocking `copySync(src, dest, options)` of the source, transcribed line
for line like `copy` (`statSync` with `throwIfNoEntry: false` plays the role of
`stat(...).catch(() => null)`; the recursive call again passes no options). -/
def copySync : Nat → FSNode → Path → Path → Option OverwriteOpt → Nat →
    Except (CopyErr × FSNode) FSNode
  | 0, root, _, _, _, _ => .error (CopyErr.outOfFuel, root)
  | fuel + 1, root, src, dest, options, now =>
    match FSNode.lookup root src with
    | none => .error (CopyErr.sourceNotFound, root)
    | some srcStat =>
      let destStat : Option FSNode := FSNode.lookup root dest
      let ow0 : Bool := decide (options = some OverwriteOpt.always) ||
        decide (options = some (OverwriteOpt.flag true))
      let ow : Bool :=
        if options = some OverwriteOpt.newer then
          match destStat with
          | some d => if srcStat.mtime > d.mtime then true else ow0
          | none => ow0
        else ow0
      if srcStat.isFile then
        let doCopyFile : FSNode → Except (CopyErr × FSNode) FSNode := fun r =>
          match FSNode.lookup r src with
          | some (FSNode.file _ c) =>
            match updateAt r dest (FSNode.file now c) with
            | some r2 => Except.ok r2
            | none => Except.error (CopyErr.copyFileFailed, r)
          | _ => Except.error (CopyErr.copyFileFailed, r)
        match destStat with
        | some d =>
          if ow then
            doCopyFile (if d.isDirectory then removeAt root dest else root)
          else Except.ok root
        | none => doCopyFile root
      else
        let resolved : Option FSNode :=
          match destStat with
          | some d =>
            if d.isFile then (if ow then some (removeAt root dest) else none)
            else some root
          | none => some root
        match resolved with
        | none => Except.ok root
        | some root1 =>
          match mkdirRec now root1 dest with
          | none => Except.error (CopyErr.mkdirFailed, root1)
          | some root2 =>
            match FSNode.lookup root2 src with
            | some (FSNode.dir _ es) =>
              (es.map Prod.fst).foldlM
                (fun r name => copySync fuel r (src ++ [name]) (dest ++ [name]) none now) root2
            | _ => Except.error (CopyErr.readdirFailed, root2)

/-- The `!filter || filter(entryPath)` test of `collectFiles`: an absent
filter accepts everything. -/
def acceptF : Option (Path → Bool) → Path → Bool
  | none, _ => true
  | some f, p => f p

/-- The inner `collect` loop of `collectFiles`, over the entry list returned
by `readdir(dir, { withFileTypes: true })`: a directory entry triggers
recursion into it, any other entry is emitted when the filter accepts its
joined path.  The emission order (depth-first, children of a directory before
later siblings) matches the shared `entries.push` accumulator of the source. -/
def collectEntries (f : Option (Path → Bool)) :
    List (String × FSNode) → Path → List Path
  | [], _ => []
  | (name, FSNode.dir _ es) :: rest, dir =>
    collectEntries f es (dir ++ [name]) ++ collectEntries f rest dir
  | (name, FSNode.file _ _) :: rest, dir =>
    (if acceptF f (dir ++ [name]) then [dir ++ [name]] else []) ++
      collectEntries f rest dir
termination_by es _ => sizeOf es

/-- `collectFiles(dir, filter)`: scans the directory at `dir`; the initial
`readdir` rejects when `dir` is absent or not a directory. -/
def collectFiles (root : FSNode) (dir : Path) (f : Option (Path → Bool)) :
    Option (List Path) :=
  match FSNode.lookup root dir with
  | some (FSNode.dir _ es) => some (collectEntries f es dir)
  | _ => none

mutual

/-- Number of file nodes in a tree. -/
def countFiles : FSNode → Nat
  | .file _ _ => 1
  | .dir _ es => countFilesEntries es

/-- Number of file nodes under an entry list. -/
def countFilesEntries : List (String × FSNode) → Nat
  | [] => 0
  | (_, c) :: rest => countFiles c + countFilesEntries rest

end

mutual

/-- Well-formedness of a filesystem tree: at every directory the entry names
are distinct (true of any real directory). -/
def wfB : FSNode → Bool
  | .file _ _ => true
  | .dir _ es => decide ((es.map Prod.fst).Nodup) && wfEntriesB es

/-- Well-formedness of every node of an entry list. -/
def wfEntriesB : List (String × FSNode) → Bool
  | [] => true
  | (_, c) :: rest => wfB c && wfEntriesB rest

end

/-!  Stream models.  A `node:stream` Readable built by `arrayToStream` is
driven by one `read()` call that pushes the whole array and then `null`; its
observable outcome is the sequence of chunks buffered before end-of-stream,
whether end-of-stream was signalled, and whether a push after end-of-stream
errored the stream (`ERR_STREAM_PUSH_AFTER_EOF`).  `null` elements are
embedded as `none`, other chunks as `some`. -/

/-- Observable state of a Readable being filled by `push` calls. -/
structure ReadableState (α : Type) where
  buffer : List α
  ended : Bool
  errored : Bool
deriving Repr, DecidableEq

/-- `readable.push(chunk)`: `null` signals end-of-stream (a repeat signal is
ignored), a chunk pushed after end-of-stream errors the stream and is not
buffered, any other chunk is appended to the buffer. -/
def ReadableState.push {α : Type} (s : ReadableState α) :
    Option α → ReadableState α
  | none => if s.ended then s else { s with ended := true }
  | some v =>
    if s.ended then { s with errored := true }
    else { s with buffer := s.buffer ++ [v] }

/-- `arrayToStream(input)`, at the push level: the `read()` callback pushes
every element of the array in order and then pushes `null`.  This state
records which chunks the stream accepted before end-of-stream, independently
of the stream's mode; what a consumer's iteration then receives depends on the
`objectMode` guess and is modelled by `Readable`, `emittedChunks` and
`streamToArray` below. -/
def arrayToStream {α : Type} (input : List (Option α)) : ReadableState α :=
  ReadableState.push
    (input.foldl ReadableState.push { buffer := [], ended := false, errored := false })
    none

/-- A non-null `ReadableChunk` value: a string, or a byte-carrying object
(`Buffer` and `Uint8Array` both collapse to `buf`). -/
inductive Chunk where
  | str (s : String)
  | buf (bytes : List Nat)
deriving DecidableEq, Repr

/-- Bytes of a chunk once it enters a byte-mode stream (Node converts string
pushes to Buffers; the exact utf8 byte encoding of a string is immaterial to
the claims, so the model takes its character codes — like utf8, it is
nonempty on nonempty strings and concatenates chunkwise). -/
def Chunk.toBytes : Chunk → List Nat
  | .str s => s.toList.map Char.toNat
  | .buf bs => bs

/-- The `objectMode` guess of `arrayToStream` when the caller passes none:
`typeof first === 'object' && first !== null`.  `undefined` (empty array),
`null` and strings are not objects; `Buffer` and `Uint8Array` are. -/
def guessObjectMode : List (Option Chunk) → Bool
  | [] => false
  | none :: _ => false
  | some (Chunk.str _) :: _ => false
  | some (Chunk.buf _) :: _ => true

/-- A Readable as its consumers see it: the mode it was constructed with,
plus the push-level state. -/
structure Readable where
  objectMode : Bool
  state : ReadableState Chunk
deriving Repr, DecidableEq

/-- What one `for await` pass receives from the chunks a stream accepted
before end-of-stream: in object mode, the chunks one-to-one; in byte mode,
the pushes were converted to Buffers on entry and — since the single `read()`
callback fills the whole internal buffer before the iterator consumes
anything, and a sizeless `read()` drains that buffer in one piece — the
iterator receives all their bytes concatenated as one Buffer (or nothing when
no bytes were pushed). -/
def emittedChunks (objectMode : Bool) (accepted : List Chunk) : List Chunk :=
  if objectMode then accepted
  else
    match (accepted.map Chunk.toBytes).flatten with
    | [] => []
    | b :: bs => [Chunk.buf (b :: bs)]

/-- The full `arrayToStream(input)` with no `objectMode` argument: the
returned stream carries the mode guessed from the first element and the
push-level state of the `read()` callback. -/
def arrayToStreamWithMode (input : List (Option Chunk)) : Readable :=
  { objectMode := guessObjectMode input, state := arrayToStream input }

/-- `streamToArray(input)`: `for await` over the stream; it rejects when the
stream errored, and otherwise collects what the stream's mode delivers of the
accepted chunks (one-to-one in object mode, coalesced bytes in byte mode). -/
def streamToArray (r : Readable) : Except Unit (List Chunk) :=
  if r.state.errored then Except.error ()
  else Except.ok (emittedChunks r.objectMode r.state.buffer)

/-- The longest null-free leading run of the input array (the chunks pushed
before the first `null`). -/
def leadingNonNull {α : Type} : List (Option α) → List α
  | [] => []
  | none :: _ => []
  | some v :: rest => v :: leadingNonNull rest

/-- Outcome of a merged stream: the chunks written to it and whether `end()`
was called on it. -/
structure MergedStream (α : Type) where
  chunks : List α
  ended : Bool
deriving Repr, DecidableEq

/-- One iteration of the `part_000` `mergeStreams` loop over the input
streams: drain the stream into the output (`merged.write(data)` for each
chunk, in order), bump the `ended` counter, and call `merged.end()` when the
counter reaches the number of input streams. -/
def mergeStep {α : Type} (total : Nat) (acc : List α × Nat × Bool)
    (s : List α) : List α × Nat × Bool :=
  let chunks := acc.1 ++ s
  let ended := acc.2.1 + 1
  (chunks, ended, if ended = total then true else acc.2.2)

/-- The `part_000` `mergeStreams(...streams)`: a sequential `for await` drain
of each input stream in order into one PassThrough.  Each input stream is
embedded as the list of chunks it emits. -/
def mergeStreams {α : Type} (streams : List (List α)) : MergedStream α :=
  let st := streams.foldl (mergeStep streams.length) ([], 0, false)
  { chunks := st.1, ended := st.2.2 }

/-- Chunk sequences obtainable by concurrently interleaving the given sources
(the arrival order at a PassThrough that all sources are piped into). -/
inductive Interleaves {α : Type} : List (List α) → List α → Prop where
  | done : ∀ ss, (∀ s ∈ ss, s = []) → Interleaves ss []
  | emit : ∀ (ss : List (List α)) (i : Nat) (x : α) (s : List α) (out : List α),
      ss[i]? = some (x :: s) → Interleaves (ss.set i s) out →
      Interleaves ss (x :: out)

/-- Observable behaviour of the `part_000` `mergeStreams`: it is sequential
and deterministic, so its only trace is the concatenated chunks together with
its `ended` flag. -/
def mergeBehavior {α : Type} (ss : List (List α)) : List α × Bool → Prop :=
  fun tr => tr = ((mergeStreams ss).chunks, (mergeStreams ss).ended)

/-- Observable behaviour of the `index.ts` `mergeStreams`: every input is
piped into the PassThrough with `{ end: false }` concurrently, so the chunks
arrive in some interleaved order, and since no input ends the output and
`output.end()` is never called, the merged stream never ends. -/
def indexMergeBehavior {α : Type} (ss : List (List α)) :
    List α × Bool → Prop :=
  fun tr => Interleaves ss tr.1 ∧ tr.2 = false

/-! Helper lemmas about the filesystem tree operations. -/

theorem lookup_nil (n : FSNode) : n.lookup [] = some n := by
  cases n <;> rfl

theorem updateAt_nil (n x : FSNode) : updateAt n [] x = some x := by
  cases n <;> rfl

theorem removeAt_nil (n : FSNode) : removeAt n [] = n := by
  cases n <;> rfl

theorem lookup_append (p : Path) : ∀ (n : FSNode) (q : Path),
    n.lookup (p ++ q) = (n.lookup p).bind (fun m => m.lookup q) := by
  induction p with
  | nil => intro n q; simp [lookup_nil]
  | cons seg rest ih =>
    intro n q
    cases n with
    | file m c => simp [FSNode.lookup]
    | dir m es =>
      simp only [List.cons_append, FSNode.lookup]
      cases findEntry es seg with
      | none => simp
      | some c => simp [ih]

theorem findEntry_setEntry_self (es : List (String × FSNode)) (seg : String)
    (x : FSNode) : findEntry (setEntry es seg x) seg = some x := by
  induction es with
  | nil => simp [setEntry, findEntry]
  | cons e rest ih =>
    obtain ⟨k, v⟩ := e
    by_cases h : k = seg
    · subst h
      simp [setEntry, findEntry]
    · simp [setEntry, findEntry, h, ih]

theorem findEntry_updateEntry_self (es : List (String × FSNode)) (seg : String)
    (f : FSNode → FSNode) :
    findEntry (updateEntry es seg f) seg = (findEntry es seg).map f := by
  induction es with
  | nil => simp [updateEntry, findEntry]
  | cons e rest ih =>
    obtain ⟨k, v⟩ := e
    by_cases h : k = seg
    · subst h
      simp [updateEntry, findEntry]
    · simp [updateEntry, findEntry, h, ih]

theorem findEntry_updateEntry_ne (es : List (String × FSNode)) (seg s : String)
    (f : FSNode → FSNode) (h : s ≠ seg) :
    findEntry (updateEntry es seg f) s = findEntry es s := by
  induction es with
  | nil => simp [updateEntry, findEntry]
  | cons e rest ih =>
    obtain ⟨k, v⟩ := e
    by_cases hk : k = seg
    · subst hk
      simp [updateEntry, findEntry, Ne.symm h, ih]
    · by_cases hs : k = s
      · subst hs
        simp [updateEntry, findEntry, hk]
      · simp [updateEntry, findEntry, hk, hs, ih]

theorem findEntry_eraseEntry_ne (es : List (String × FSNode)) (seg s : String)
    (h : s ≠ seg) : findEntry (eraseEntry es seg) s = findEntry es s := by
  induction es with
  | nil => simp [eraseEntry, findEntry]
  | cons e rest ih =>
    obtain ⟨k, v⟩ := e
    by_cases hk : k = seg
    · subst hk
      simp [eraseEntry, findEntry, Ne.symm h, ih]
    · by_cases hs : k = s
      · subst hs
        simp [eraseEntry, findEntry, hk]
      · simp [eraseEntry, findEntry, hk, hs, ih]

theorem updateAt_of_lookup (p : Path) : ∀ (n old x : FSNode),
    n.lookup p = some old →
    ∃ r, updateAt n p x = some r ∧ r.lookup p = some x := by
  induction p with
  | nil =>
    intro n old x _
    exact ⟨x, updateAt_nil n x, lookup_nil x⟩
  | cons seg rest ih =>
    intro n old x hl
    cases n with
    | file m c => simp [FSNode.lookup] at hl
    | dir m es =>
      simp only [FSNode.lookup] at hl
      cases hfe : findEntry es seg with
      | none => rw [hfe] at hl; simp at hl
      | some child =>
        rw [hfe] at hl
        simp only at hl
        cases rest with
        | nil =>
          refine ⟨.dir m (setEntry es seg x), rfl, ?_⟩
          simp [FSNode.lookup, findEntry_setEntry_self, lookup_nil]
        | cons r2 rs =>
          obtain ⟨c2, hu, hlc⟩ := ih child old x hl
          refine ⟨.dir m (setEntry es seg c2), ?_, ?_⟩
          · simp [updateAt, hfe, hu]
          · simp [FSNode.lookup, findEntry_setEntry_self, hlc]

theorem updateAt_removeAt (p : Path) : ∀ (n old x : FSNode),
    n.lookup p = some old →
    ∃ r, updateAt (removeAt n p) p x = some r ∧ r.lookup p = some x := by
  induction p with
  | nil =>
    intro n old x _
    rw [removeAt_nil]
    exact ⟨x, updateAt_nil n x, lookup_nil x⟩
  | cons seg rest ih =>
    intro n old x hl
    cases n with
    | file m c => simp [FSNode.lookup] at hl
    | dir m es =>
      simp only [FSNode.lookup] at hl
      cases hfe : findEntry es seg with
      | none => rw [hfe] at hl; simp at hl
      | some child =>
        rw [hfe] at hl
        simp only at hl
        cases rest with
        | nil =>
          refine ⟨.dir m (setEntry (eraseEntry es seg) seg x), ?_, ?_⟩
          · simp [removeAt, updateAt]
          · simp [FSNode.lookup, findEntry_setEntry_self, lookup_nil]
        | cons r2 rs =>
          obtain ⟨c2, hu, hlc⟩ := ih child old x hl
          refine ⟨.dir m (setEntry (updateEntry es seg (fun c => removeAt c (r2 :: rs))) seg c2), ?_, ?_⟩
          · simp [removeAt, updateAt, findEntry_updateEntry_self, hfe, hu]
          · simp [FSNode.lookup, findEntry_setEntry_self, hlc]

theorem removeAt_lookup_diverge (dest : Path) : ∀ (src : Path) (n : FSNode),
    ¬ dest <+: src → ¬ src <+: dest →
    (removeAt n dest).lookup src = n.lookup src := by
  induction dest with
  | nil =>
    intro src n hd _
    exact absurd ⟨src, rfl⟩ hd
  | cons d ds ih =>
    intro src n hd hs
    cases src with
    | nil => exact absurd ⟨d :: ds, rfl⟩ hs
    | cons s ss =>
      cases n with
      | file m c => simp [removeAt, FSNode.lookup]
      | dir m es =>
        by_cases hsd : s = d
        · subst hsd
          have hd2 : ¬ ds <+: ss := fun h => hd (List.cons_prefix_cons.mpr ⟨rfl, h⟩)
          have hs2 : ¬ ss <+: ds := fun h => hs (List.cons_prefix_cons.mpr ⟨rfl, h⟩)
          cases ds with
          | nil => exact absurd ⟨ss, rfl⟩ hd2
          | cons d2 ds2 =>
            simp only [removeAt, FSNode.lookup, findEntry_updateEntry_self]
            cases findEntry es s with
            | none => simp
            | some child =>
              simp only [Option.map_some]
              exact ih ss child hd2 hs2
        · cases ds with
          | nil =>
            simp only [removeAt, FSNode.lookup]
            rw [findEntry_eraseEntry_ne es d s hsd]
          | cons d2 ds2 =>
            simp only [removeAt, FSNode.lookup]
            rw [findEntry_updateEntry_ne es d s _ hsd]

theorem copy_eq_copySync : ∀ (fuel : Nat) (root : FSNode) (src dest : Path)
    (o : Option OverwriteOpt) (now : Nat),
    copy fuel root src dest o now = copySync fuel root src dest o now := by
  intro fuel
  induction fuel with
  | zero => intro root src dest o now; rfl
  | succ fuel ih =>
    intro root src dest o now
    have hfun : copy fuel = copySync fuel := by
      funext r s d o2 n
      exact ih r s d o2 n
    show copy (fuel + 1) root src dest o now = copySync (fuel + 1) root src dest o now
    simp only [copy, copySync]
    rw [hfun]


/-- Claim C3: for every invocation of `copy` or `copySync` whose source path
does not exist, the operation fails immediately with the source-not-found
error kind (the rejection of the initial `stat(src)`, the spec's
`SourceNotFoundError`), and the destination is not modified: the error carries
the filesystem unchanged. -/
theorem copy_source_absent (fuel : Nat) (root : FSNode) (src dest : Path)
    (o : Option OverwriteOpt) (now : Nat) (h : FSNode.lookup root src = none) :
    copy (fuel + 1) root src dest o now =
      Except.error (CopyErr.sourceNotFound, root) ∧
    copySync (fuel + 1) root src dest o now =
      Except.error (CopyErr.sourceNotFound, root) := by
  rw [← copy_eq_copySync]
  simp [copy, h]


/-- Claim C2: for a file-vs-file task under policy `newer`, the destination is
updated (to the source's bytes) if and only if the source's modification time
is strictly greater than the destination's; when the times are equal or the
source is older, the call succeeds and the whole filesystem — in particular
the destination's bytes — is unchanged.  Holds for `copy` and `copySync`. -/
theorem copy_newer_file_over_file (fuel : Nat) (root : FSNode) (src dest : Path)
    (sm dm : Nat) (sc dc : List Nat) (now : Nat)
    (hs : FSNode.lookup root src = some (FSNode.file sm sc))
    (hd : FSNode.lookup root dest = some (FSNode.file dm dc)) :
    (sm > dm → ∃ r, copy (fuel + 1) root src dest (some OverwriteOpt.newer) now = Except.ok r ∧
        copySync (fuel + 1) root src dest (some OverwriteOpt.newer) now = Except.ok r ∧
        r.lookup dest = some (FSNode.file now sc)) ∧
    (¬ sm > dm →
        copy (fuel + 1) root src dest (some OverwriteOpt.newer) now = Except.ok root ∧
        copySync (fuel + 1) root src dest (some OverwriteOpt.newer) now = Except.ok root) := by
  constructor
  · intro hgt
    obtain ⟨r, hu, hl⟩ := updateAt_of_lookup dest root (FSNode.file dm dc) (FSNode.file now sc) hd
    refine ⟨r, ?_, ?_, hl⟩
    · simp [copy, hs, hd, FSNode.mtime, FSNode.isFile, FSNode.isDirectory, hgt, hu]
    · rw [← copy_eq_copySync]
      simp [copy, hs, hd, FSNode.mtime, FSNode.isFile, FSNode.isDirectory, hgt, hu]
  · intro hle
    constructor
    · simp [copy, hs, hd, FSNode.mtime, FSNode.isFile, FSNode.isDirectory, hle]
    · rw [← copy_eq_copySync]
      simp [copy, hs, hd, FSNode.mtime, FSNode.isFile, FSNode.isDirectory, hle]


/-- Claim C5: when the source is a directory, the destination is an existing
file, and overwrite is not permitted (no options supplied, or policy `never`),
`copy` and `copySync` complete successfully and return the filesystem
untouched, so the destination path still holds the original file and nothing
at or under it is modified. -/
theorem copy_dir_over_file_noop (fuel : Nat) (root : FSNode) (src dest : Path)
    (sm : Nat) (ses : List (String × FSNode)) (dm : Nat) (dc : List Nat)
    (o : Option OverwriteOpt) (now : Nat)
    (ho : o = none ∨ o = some OverwriteOpt.never)
    (hs : FSNode.lookup root src = some (FSNode.dir sm ses))
    (hd : FSNode.lookup root dest = some (FSNode.file dm dc)) :
    copy (fuel + 1) root src dest o now = Except.ok root ∧
    copySync (fuel + 1) root src dest o now = Except.ok root := by
  rw [← copy_eq_copySync]
  rcases ho with ho | ho <;> subst ho <;>
    simp [copy, hs, hd, FSNode.isFile, FSNode.isDirectory]


/-- Claim C4: when the source is a file, the destination is an existing
directory, and the policy is `always`, the destination directory and its
contents are deleted and the source's bytes are copied in its place: after the
call the destination path is a file with the source's bytes and nothing exists
below the destination path (no residue).  The embedding is sequential state
passing, so the recursive deletion (`rm -r`) completes before the replacing
`copyFile` runs by construction.  The hypothesis that the destination is not a
prefix of the source rules out the self-destructive overlap of deleting a
directory that contains the source file, which the claim does not consider. -/
theorem copy_file_over_dir_always (fuel : Nat) (root : FSNode) (src dest : Path)
    (sm : Nat) (sc : List Nat) (dm : Nat) (des : List (String × FSNode)) (now : Nat)
    (hs : FSNode.lookup root src = some (FSNode.file sm sc))
    (hd : FSNode.lookup root dest = some (FSNode.dir dm des))
    (hnp : ¬ dest <+: src) :
    ∃ r, copy (fuel + 1) root src dest (some OverwriteOpt.always) now = Except.ok r ∧
      copySync (fuel + 1) root src dest (some OverwriteOpt.always) now = Except.ok r ∧
      r.lookup dest = some (FSNode.file now sc) ∧
      ∀ q, q ≠ ([] : Path) → r.lookup (dest ++ q) = none := by
  have hsp : ¬ src <+: dest := by
    rintro ⟨t, ht⟩
    cases t with
    | nil =>
      rw [List.append_nil] at ht
      subst ht
      rw [hs] at hd
      exact absurd hd (by simp)
    | cons a ts =>
      have := lookup_append src root (a :: ts)
      rw [ht, hs] at this
      simp [FSNode.lookup] at this
      rw [this] at hd
      exact absurd hd (by simp)
  have hlr : (removeAt root dest).lookup src = some (FSNode.file sm sc) := by
    rw [removeAt_lookup_diverge dest src root hnp hsp, hs]
  obtain ⟨r, hu, hl⟩ :=
    updateAt_removeAt dest root (FSNode.dir dm des) (FSNode.file now sc) hd
  refine ⟨r, ?_, ?_, hl, ?_⟩
  · simp [copy, hs, hd, FSNode.isFile, FSNode.isDirectory, hlr, hu]
  · rw [← copy_eq_copySync]
    simp [copy, hs, hd, FSNode.isFile, FSNode.isDirectory, hlr, hu]
  · intro q hq
    rw [lookup_append, hl]
    cases q with
    | nil => exact absurd rfl hq
    | cons a qs => simp [FSNode.lookup]

def bugRoot : FSNode :=
  .dir 0 [("s", .dir 1 [("a", .file 5 [1])]), ("d", .dir 2 [("a", .file 3 [2])])]

/-- Claim C1 (code bug, exhibited): with policy `always`, a source directory
and an existing destination directory, the recursive calls on the children
drop the options, so a differing destination child file is NOT overwritten.
On the concrete tree `bugRoot` (source `s/a` has bytes `[1]`, destination
`d/a` has bytes `[2]`), `copy` and `copySync` with `overwrite: 'always'`
return the filesystem completely unchanged: `d/a` keeps `[2]`, which differs
from the source's `[1]`, contradicting the claim that every destination file
ends byte-equal to its source file. -/
theorem copy_always_child_not_overwritten :
    copy 3 bugRoot ["s"] ["d"] (some OverwriteOpt.always) 9 = Except.ok bugRoot ∧
    copySync 3 bugRoot ["s"] ["d"] (some OverwriteOpt.always) 9 = Except.ok bugRoot ∧
    FSNode.lookup bugRoot ["s", "a"] = some (FSNode.file 5 [1]) ∧
    FSNode.lookup bugRoot ["d", "a"] = some (FSNode.file 3 [2]) ∧
    ([2] : List Nat) ≠ [1] :=
  ⟨rfl, rfl, rfl, rfl, by decide⟩

/-- Claim C7: `copy` and `copySync` perform the identical algorithm — for
every recursion budget, source tree, destination, options value and clock,
the synchronous `copySync` yields exactly the same result (same final
filesystem on success, same error and same filesystem at the throw on
failure) as the asynchronous `copy`. -/
theorem copySync_same_algorithm (fuel : Nat) (root : FSNode) (src dest : Path)
    (o : Option OverwriteOpt) (now : Nat) :
    copySync fuel root src dest o now = copy fuel root src dest o now :=
  (copy_eq_copySync fuel root src dest o now).symm

def rootC2 : FSNode := .dir 0 [("s", .file 5 [7]), ("d", .file 3 [9])]

theorem copy_newer_file_over_file_witness :
    (5 > 3 → ∃ r,
        copy 1 rootC2 ["s"] ["d"] (some OverwriteOpt.newer) 11 = Except.ok r ∧
        copySync 1 rootC2 ["s"] ["d"] (some OverwriteOpt.newer) 11 = Except.ok r ∧
        r.lookup ["d"] = some (FSNode.file 11 [7])) ∧
    (¬ 5 > 3 →
        copy 1 rootC2 ["s"] ["d"] (some OverwriteOpt.newer) 11 = Except.ok rootC2 ∧
        copySync 1 rootC2 ["s"] ["d"] (some OverwriteOpt.newer) 11 = Except.ok rootC2) :=
  copy_newer_file_over_file 0 rootC2 ["s"] ["d"] 5 3 [7] [9] 11 rfl rfl

def rootC3 : FSNode := .dir 0 [("a", .file 1 [1])]

theorem copy_source_absent_witness :
    copy 1 rootC3 ["x"] ["y"] none 0 =
      Except.error (CopyErr.sourceNotFound, rootC3) ∧
    copySync 1 rootC3 ["x"] ["y"] none 0 =
      Except.error (CopyErr.sourceNotFound, rootC3) :=
  copy_source_absent 0 rootC3 ["x"] ["y"] none 0 rfl

def rootC4 : FSNode := .dir 0 [("s", .file 5 [7]), ("d", .dir 2 [("x", .file 1 [4])])]

theorem copy_file_over_dir_always_witness :
    ∃ r, copy 1 rootC4 ["s"] ["d"] (some OverwriteOpt.always) 11 = Except.ok r ∧
      copySync 1 rootC4 ["s"] ["d"] (some OverwriteOpt.always) 11 = Except.ok r ∧
      r.lookup ["d"] = some (FSNode.file 11 [7]) ∧
      ∀ q, q ≠ ([] : Path) → r.lookup (["d"] ++ q) = none :=
  copy_file_over_dir_always 0 rootC4 ["s"] ["d"] 5 [7] 2 [("x", .file 1 [4])] 11
    rfl rfl (by decide)

def rootC5 : FSNode := .dir 0 [("s", .dir 1 []), ("d", .file 3 [9])]

theorem copy_dir_over_file_noop_witness :
    copy 1 rootC5 ["s"] ["d"] (some OverwriteOpt.never) 11 = Except.ok rootC5 ∧
    copySync 1 rootC5 ["s"] ["d"] (some OverwriteOpt.never) 11 = Except.ok rootC5 :=
  copy_dir_over_file_noop 0 rootC5 ["s"] ["d"] 1 [] 3 [9]
    (some OverwriteOpt.never) 11 (Or.inr rfl) rfl rfl

theorem push_none_buffer {α : Type} (s : ReadableState α) :
    (ReadableState.push s none).buffer = s.buffer := by
  simp only [ReadableState.push]
  split <;> rfl

theorem push_none_ended {α : Type} (s : ReadableState α) :
    (ReadableState.push s none).ended = true := by
  simp only [ReadableState.push]
  split
  · assumption
  · rfl

theorem push_none_errored {α : Type} (s : ReadableState α) :
    (ReadableState.push s none).errored = s.errored := by
  simp only [ReadableState.push]
  split <;> rfl

theorem push_foldl_ended {α : Type} : ∀ (l : List (Option α)) (s : ReadableState α),
    s.ended = true →
    (l.foldl ReadableState.push s).buffer = s.buffer ∧
    (l.foldl ReadableState.push s).ended = true := by
  intro l
  induction l with
  | nil => intro s h; exact ⟨rfl, h⟩
  | cons c rest ih =>
    intro s h
    cases c with
    | none =>
      simp only [List.foldl_cons, ReadableState.push, h, if_true]
      exact ih s h
    | some v =>
      simp only [List.foldl_cons, ReadableState.push, h, if_true]
      exact ih { buffer := s.buffer, ended := true, errored := true } rfl

theorem push_foldl_open {α : Type} : ∀ (l : List (Option α)) (s : ReadableState α),
    s.ended = false →
    (l.foldl ReadableState.push s).buffer = s.buffer ++ leadingNonNull l ∧
    (l.foldl ReadableState.push s).ended = l.any (fun c => c.isNone) := by
  intro l
  induction l with
  | nil => intro s h; simp [leadingNonNull, h]
  | cons c rest ih =>
    intro s h
    cases c with
    | none =>
      simp only [List.foldl_cons, ReadableState.push, h, if_false, Bool.false_eq_true]
      have h2 := push_foldl_ended rest
        { buffer := s.buffer, ended := true, errored := s.errored } rfl
      simp only [if_false] at h2 ⊢
      constructor
      · simpa [leadingNonNull] using h2.1
      · simpa [leadingNonNull] using h2.2
    | some v =>
      simp only [List.foldl_cons, ReadableState.push, h, if_false, Bool.false_eq_true]
      have h2 := ih
        { buffer := s.buffer ++ [v], ended := false, errored := s.errored } rfl
      constructor
      · simp only [h2.1, leadingNonNull]
        simp
      · simp [h2.2, leadingNonNull]

theorem push_foldl_clean {α : Type} : ∀ (l : List (Option α)) (s : ReadableState α),
    s.ended = false → s.errored = false → (∀ c ∈ l, c ≠ none) →
    l.foldl ReadableState.push s =
      { buffer := s.buffer ++ leadingNonNull l, ended := false, errored := false } := by
  intro l
  induction l with
  | nil =>
    intro s h1 h2 _
    cases s
    simp_all [leadingNonNull]
  | cons c rest ih =>
    intro s h1 h2 hm
    cases c with
    | none => exact absurd rfl (hm none (by simp))
    | some v =>
      simp only [List.foldl_cons, ReadableState.push, h1, h2, if_false, Bool.false_eq_true]
      have h3 := ih { buffer := s.buffer ++ [v], ended := false, errored := false }
        rfl rfl (fun c hc => hm c (List.mem_cons_of_mem _ hc))
      rw [h3]
      simp [leadingNonNull]

theorem mergeFold_chunks {α : Type} (n : Nat) : ∀ (ss : List (List α))
    (acc : List α × Nat × Bool),
    (ss.foldl (mergeStep n) acc).1 = acc.1 ++ ss.flatten := by
  intro ss
  induction ss with
  | nil => intro acc; simp
  | cons s rest ih =>
    intro acc
    simp only [List.foldl_cons]
    rw [ih]
    simp [mergeStep]

theorem mergeFold_ended {α : Type} (n : Nat) : ∀ (ss : List (List α))
    (acc : List α × Nat × Bool),
    ss ≠ [] → acc.2.1 + ss.length = n →
    (ss.foldl (mergeStep n) acc).2.2 = true := by
  intro ss
  induction ss with
  | nil => intro acc h _; exact absurd rfl h
  | cons s rest ih =>
    intro acc _ hlen
    cases rest with
    | nil =>
      simp only [List.length_cons, List.length_nil] at hlen
      simp [mergeStep, hlen]
    | cons s2 rest2 =>
      simp only [List.foldl_cons]
      apply ih (mergeStep n acc s) (by simp)
      simp only [List.length_cons] at hlen ⊢
      simp [mergeStep]
      omega

/-- Claim C9: the stream built by `arrayToStream` emits exactly the longest
null-free leading run of the input array and then ends: pushing `null` is the
underlying stream's end-of-stream signal, so chunks after the first `null`
are never buffered, and the stream always reaches its ended state. -/
theorem arrayToStream_emits {α : Type} (input : List (Option α)) :
    (arrayToStream input).buffer = leadingNonNull input ∧
    (arrayToStream input).ended = true := by
  have hopen := push_foldl_open input (⟨[], false, false⟩ : ReadableState α) rfl
  unfold arrayToStream
  rw [push_none_buffer, push_none_ended]
  exact ⟨by simpa using hopen.1, rfl⟩

/-- Claim C10 (counterexample to the claim as stated): the array
`['x', 'y']` consists of non-null chunks, but its guessed mode is byte mode
(`typeof 'x' !== 'object'`), so the strings are converted to Buffers on push
and the iteration receives their bytes coalesced into a single Buffer — the
round trip yields one Buffer chunk, not the original two string chunks. -/
theorem streamToArray_arrayToStream_bytemode :
    streamToArray (arrayToStreamWithMode [some (Chunk.str "x"), some (Chunk.str "y")]) ≠
      Except.ok [Chunk.str "x", Chunk.str "y"] ∧
    streamToArray (arrayToStreamWithMode [some (Chunk.str "x"), some (Chunk.str "y")]) =
      Except.ok [Chunk.buf (Chunk.toBytes (Chunk.str "x") ++ Chunk.toBytes (Chunk.str "y"))] := by
  have hval : streamToArray
      (arrayToStreamWithMode [some (Chunk.str "x"), some (Chunk.str "y")]) =
      Except.ok [Chunk.buf (Chunk.toBytes (Chunk.str "x") ++ Chunk.toBytes (Chunk.str "y"))] := rfl
  refine ⟨?_, hval⟩
  rw [hval]
  intro hcontra
  simp at hcontra

/-- Claim C10 (amended): round-trip for object-mode streams — for every
finite array of non-null chunks whose guessed mode is object mode (its first
element is a Buffer or Uint8Array, i.e. an object), `streamToArray` applied
to `arrayToStream` of that array resolves to an array equal to the original,
same chunks in the same order (`leadingNonNull input` is the whole input when
no element is null, as the second conjunct states).  In byte mode the pushes
are coalesced, so the original chunking is not recovered there. -/
theorem streamToArray_arrayToStream_objectMode (input : List (Option Chunk))
    (h : ∀ c ∈ input, c ≠ none) (hm : guessObjectMode input = true) :
    streamToArray (arrayToStreamWithMode input) = Except.ok (leadingNonNull input) ∧
    (leadingNonNull input).map some = input := by
  constructor
  · have hc := push_foldl_clean input (⟨[], false, false⟩ : ReadableState Chunk) rfl rfl h
    unfold arrayToStreamWithMode arrayToStream
    rw [hc]
    simp [ReadableState.push, streamToArray, emittedChunks, hm]
  · clear hm
    induction input with
    | nil => rfl
    | cons c rest ih =>
      cases c with
      | none => exact absurd rfl (h none (by simp))
      | some v =>
        simp only [leadingNonNull, List.map_cons, List.cons.injEq, true_and]
        exact ih (fun c hc => h c (List.mem_cons_of_mem _ hc))

theorem streamToArray_arrayToStream_objectMode_witness :
    streamToArray (arrayToStreamWithMode [some (Chunk.buf [1]), some (Chunk.buf [2])]) =
      Except.ok (leadingNonNull [some (Chunk.buf [1]), some (Chunk.buf [2])]) ∧
    (leadingNonNull [some (Chunk.buf [1]), some (Chunk.buf [2])]).map some =
      [some (Chunk.buf [1]), some (Chunk.buf [2])] :=
  streamToArray_arrayToStream_objectMode [some (Chunk.buf [1]), some (Chunk.buf [2])]
    (by decide) rfl

/-- Claim C8 (amended): the `part_000` `mergeStreams` implements strict
per-source concatenation — its chunks are the concatenation of the input
streams in order — and, when at least one input stream is given, it ends
after the last input is drained; the `index.ts` `mergeStreams`, by contrast,
pipes every input with `end: false` and never calls `end()`, so its merged
stream never ends (its chunks arrive in interleaved order).  The two exported
implementations are therefore not behaviorally equivalent. -/
theorem mergeStreams_contrast (α : Type) :
    (∀ (ss : List (List α)), (mergeStreams ss).chunks = ss.flatten) ∧
    (∀ (ss : List (List α)), ss ≠ [] → (mergeStreams ss).ended = true) ∧
    (∀ (ss : List (List α)) (tr : List α × Bool),
        indexMergeBehavior ss tr → tr.2 = false) := by
  refine ⟨?_, ?_, ?_⟩
  · intro ss
    simp [mergeStreams, mergeFold_chunks]
  · intro ss h
    have := mergeFold_ended ss.length ss ([], 0, false) h (by simp)
    simpa [mergeStreams] using this
  · intro ss tr h
    exact h.2

theorem mergeStreams_contrast_witness :
    (mergeStreams [["a"], ["b", "c"]]).chunks = [["a"], ["b", "c"]].flatten ∧
    (mergeStreams [["a"], ["b", "c"]]).ended = true ∧
    (∀ tr : List String × Bool, indexMergeBehavior [["a"], ["b", "c"]] tr → tr.2 = false) :=
  ⟨(mergeStreams_contrast String).1 [["a"], ["b", "c"]],
   (mergeStreams_contrast String).2.1 [["a"], ["b", "c"]] (by decide),
   fun tr h => (mergeStreams_contrast String).2.2 [["a"], ["b", "c"]] tr h⟩

/-- Claim C8 (counterexample to the claim as stated): already on the single
input stream `["a"]` the two implementations differ — the `part_000` merge
ends after draining it, while the `index.ts` merge admits no trace in which
the merged stream has ended. -/
theorem mergeStreams_not_equivalent :
    mergeBehavior [["a"]] ≠ indexMergeBehavior [["a"]] := by
  intro h
  have h1 : indexMergeBehavior [["a"]] ((["a"] : List String), true) := by
    rw [← h]
    rfl
  exact absurd h1.2 (by decide)

theorem collectEntries_length (es : List (String × FSNode)) (base : Path) :
    (collectEntries none es base).length = countFilesEntries es :=
  match es with
  | [] => by simp [collectEntries, countFilesEntries]
  | (name, FSNode.dir dm des) :: rest => by
    have h1 := collectEntries_length des (base ++ [name])
    have h2 := collectEntries_length rest base
    simp [collectEntries, countFilesEntries, countFiles, h1, h2]
  | (name, FSNode.file fm fc) :: rest => by
    have h2 := collectEntries_length rest base
    simp [collectEntries, countFilesEntries, countFiles, acceptF, h2]
    omega
termination_by sizeOf es

theorem collectEntries_filter (es : List (String × FSNode)) (base : Path)
    (f : Path → Bool) :
    collectEntries (some f) es base = (collectEntries none es base).filter f :=
  match es with
  | [] => by simp [collectEntries]
  | (name, FSNode.dir dm des) :: rest => by
    have h1 := collectEntries_filter des (base ++ [name]) f
    have h2 := collectEntries_filter rest base f
    simp [collectEntries, h1, h2]
  | (name, FSNode.file fm fc) :: rest => by
    have h2 := collectEntries_filter rest base f
    by_cases hf : f (base ++ [name]) = true
    · simp [collectEntries, acceptF, hf, h2]
    · simp [collectEntries, acceptF, hf, h2, Bool.of_not_eq_true hf]
termination_by sizeOf es

theorem findEntry_some_mem (es : List (String × FSNode)) (s : String)
    (x : FSNode) (h : findEntry es s = some x) : s ∈ es.map Prod.fst := by
  induction es with
  | nil => simp [findEntry] at h
  | cons e rest ih =>
    obtain ⟨k, v⟩ := e
    by_cases hk : k = s
    · simp [hk]
    · simp only [findEntry, hk, if_false] at h
      simp [ih h]

theorem wfB_dir_iff (m : Nat) (es : List (String × FSNode)) :
    wfB (FSNode.dir m es) = true ↔
      (es.map Prod.fst).Nodup ∧ wfEntriesB es = true := by
  simp [wfB, Bool.and_eq_true, decide_eq_true_eq]

theorem collectEntries_mem (es : List (String × FSNode)) (base : Path) (p : Path)
    (hw : wfB (FSNode.dir 0 es) = true)
    (hp : p ∈ collectEntries none es base) :
    ∃ rel fm fc, rel ≠ ([] : Path) ∧ p = base ++ rel ∧
      FSNode.lookup (FSNode.dir 0 es) rel = some (FSNode.file fm fc) :=
  match es with
  | [] => by simp [collectEntries] at hp
  | (name, FSNode.file fm fc) :: rest => by
    obtain ⟨hnd, hwe⟩ := (wfB_dir_iff 0 _).mp hw
    simp only [List.map_cons, List.nodup_cons] at hnd
    simp only [wfEntriesB, Bool.and_eq_true] at hwe
    have hwrest : wfB (FSNode.dir 0 rest) = true :=
      (wfB_dir_iff 0 rest).mpr ⟨hnd.2, hwe.2⟩
    simp only [collectEntries, acceptF, if_true, List.mem_append,
      List.mem_singleton] at hp
    rcases hp with hp | hp
    · exact ⟨[name], fm, fc, by simp, hp, by simp [FSNode.lookup, findEntry]⟩
    · obtain ⟨rel, fm2, fc2, hne, hpe, hlk⟩ :=
        collectEntries_mem rest base p hwrest hp
      refine ⟨rel, fm2, fc2, hne, hpe, ?_⟩
      cases rel with
      | nil => exact absurd rfl hne
      | cons r0 rs =>
        simp only [FSNode.lookup] at hlk ⊢
        cases hfe : findEntry rest r0 with
        | none => rw [hfe] at hlk; simp at hlk
        | some c =>
          rw [hfe] at hlk
          have hr0 : r0 ∈ rest.map Prod.fst := findEntry_some_mem rest r0 c hfe
          have hname : ¬ name = r0 := fun hh => hnd.1 (hh ▸ hr0)
          rw [show findEntry ((name, FSNode.file fm fc) :: rest) r0 =
            findEntry rest r0 from by simp [findEntry, hname], hfe]
          exact hlk
  | (name, FSNode.dir dm des) :: rest => by
    obtain ⟨hnd, hwe⟩ := (wfB_dir_iff 0 _).mp hw
    simp only [List.map_cons, List.nodup_cons] at hnd
    simp only [wfEntriesB, Bool.and_eq_true] at hwe
    have hwrest : wfB (FSNode.dir 0 rest) = true :=
      (wfB_dir_iff 0 rest).mpr ⟨hnd.2, hwe.2⟩
    have hwdes : wfB (FSNode.dir 0 des) = true := by
      have := hwe.1
      rw [wfB_dir_iff] at this ⊢
      exact this
    simp only [collectEntries, List.mem_append] at hp
    rcases hp with hp | hp
    · obtain ⟨rel, fm2, fc2, hne, hpe, hlk⟩ :=
        collectEntries_mem des (base ++ [name]) p hwdes hp
      refine ⟨name :: rel, fm2, fc2, by simp, by simp [hpe], ?_⟩
      simp only [FSNode.lookup, findEntry, if_pos rfl]
      cases rel with
      | nil => exact absurd rfl hne
      | cons r0 rs =>
        simp only [FSNode.lookup] at hlk
        exact hlk
    · obtain ⟨rel, fm2, fc2, hne, hpe, hlk⟩ :=
        collectEntries_mem rest base p hwrest hp
      refine ⟨rel, fm2, fc2, hne, hpe, ?_⟩
      cases rel with
      | nil => exact absurd rfl hne
      | cons r0 rs =>
        simp only [FSNode.lookup] at hlk ⊢
        cases hfe : findEntry rest r0 with
        | none => rw [hfe] at hlk; simp at hlk
        | some c =>
          rw [hfe] at hlk
          have hr0 : r0 ∈ rest.map Prod.fst := findEntry_some_mem rest r0 c hfe
          have hname : ¬ name = r0 := fun hh => hnd.1 (hh ▸ hr0)
          rw [show findEntry ((name, FSNode.dir dm des) :: rest) r0 =
            findEntry rest r0 from by simp [findEntry, hname], hfe]
          exact hlk
termination_by sizeOf es

/-- Claim C6: on a well-formed directory tree, `collectFiles` without a
predicate returns exactly one entry per file of the tree (at any depth), and
every returned path resolves to a file, never a directory; with a predicate,
it returns exactly the no-predicate traversal filtered at file emission — the
predicate receives the full joined path and only filters which files are
emitted, never pruning the traversal of subtrees. -/
theorem collectFiles_spec (root : FSNode) (dir : Path) (m : Nat)
    (es : List (String × FSNode))
    (hdir : FSNode.lookup root dir = some (FSNode.dir m es))
    (hwf : wfB (FSNode.dir m es) = true) :
    ∃ L, collectFiles root dir none = some L ∧
      L.length = countFiles (FSNode.dir m es) ∧
      (∀ p ∈ L, ∃ fm fc, FSNode.lookup root p = some (FSNode.file fm fc)) ∧
      (∀ f, collectFiles root dir (some f) = some (L.filter f)) := by
  refine ⟨collectEntries none es dir, ?_, ?_, ?_, ?_⟩
  · simp [collectFiles, hdir]
  · simp [collectEntries_length, countFiles]
  · intro p hp
    have hw0 : wfB (FSNode.dir 0 es) = true := by
      rw [wfB_dir_iff] at hwf ⊢
      exact hwf
    obtain ⟨rel, fm, fc, hne, hpe, hlk⟩ := collectEntries_mem es dir p hw0 hp
    refine ⟨fm, fc, ?_⟩
    subst hpe
    rw [lookup_append, hdir]
    cases rel with
    | nil => exact absurd rfl hne
    | cons r0 rs =>
      simp only [FSNode.lookup, Option.bind_some] at hlk ⊢
      exact hlk
  · intro f
    simp [collectFiles, hdir, collectEntries_filter]

def rootC6 : FSNode :=
  .dir 0 [("a", .file 1 [1]), ("sub", .dir 2 [("b", .file 3 [2])])]

theorem collectFiles_spec_witness :
    ∃ L, collectFiles rootC6 [] none = some L ∧
      L.length = countFiles (FSNode.dir 0
        [("a", .file 1 [1]), ("sub", .dir 2 [("b", .file 3 [2])])]) ∧
      (∀ p ∈ L, ∃ fm fc, FSNode.lookup rootC6 p = some (FSNode.file fm fc)) ∧
      (∀ f, collectFiles rootC6 [] (some f) = some (L.filter f)) :=
  collectFiles_spec rootC6 [] 0
    [("a", .file 1 [1]), ("sub", .dir 2 [("b", .file 3 [2])])] rfl (by decide)

end KogsUtils
